import Mathlib

/-!
A shallow embedding of the small-vector family in
`src/components/util/smallvec.rs` (servo).

Modelling conventions, each traceable to a construct of the source:

* A memory slot for an element of type `α` is a `Slot α`:
  `Slot.uninit` models the contents produced by `mem::uninitialized()`
  (and by `heap::allocate`, which returns uninitialized memory),
  `Slot.zeroed` models the contents produced by `mem::zeroed()` /
  `intrinsics::set_memory(_, 0, _)`, and `Slot.live x` models a slot into
  which the value `x` has been written (`mem::overwrite`).
* The `ptr: *T` heap pointer is modelled as `Option (List (Slot α))`:
  `none` is the null pointer set by `ptr::null()` in `new()`, and
  `some b` is a pointer to a heap allocation whose slots are `b`.
  Dereferencing the pointer is reading that list; `heap::deallocate` /
  `local_heap::local_free` have no observable effect in the model beyond
  the pointer being overwritten, so they are not represented.
* `uint` values (`len`, `cap`, indices) are modelled as `Nat`.  The one
  operation of the source whose two's-complement overflow behaviour a
  claim depends on — the `last_index as int` cast inside `pop` — is
  modelled exactly, as a cast of `n % 2^64` to a signed 64-bit integer
  (`asInt64`).  All other arithmetic in the source (`len + 1`,
  `cap * 2`) stays far below `2^64` in every state the claims quantify
  over, so it is modelled without wraparound.
* A fatal failure (`fail!`, a failed `assert!`) never returns to the
  caller; an operation that can fail fatally returns an `Option`
  (`none` = the fatal path was taken) or a dedicated result type
  (`PopResult.overflowFail`).
* References returned or yielded by the source (`get`, `iter`, ...) are
  modelled by the slot contents they point at.

The macro `def_small_vector!($name, $size)` generates one structure per
inline size; the model uses a single structure carrying the generated
constant `$size` as the field `inline_size`, so `SmallVec α` with
`inline_size = 2` is `SmallVec2<T>`, and so on.
-/

/-- A memory slot: uninitialized bytes, zeroed bytes, or a live value. -/
inductive Slot (α : Type) where
  | uninit : Slot α
  | zeroed : Slot α
  | live (val : α) : Slot α
deriving DecidableEq, Repr

/-- The modulus of `uint` arithmetic on the 64-bit targets the source runs on. -/
def UINT_MOD : Nat := 2 ^ 64

/-- The value of a `uint` bit pattern reinterpreted as a signed integer by
an `as int` cast (two's complement, 64-bit). -/
def asInt64 (n : Nat) : Int :=
  if n % UINT_MOD < 2 ^ 63 then ((n % UINT_MOD : Nat) : Int)
  else ((n % UINT_MOD : Nat) : Int) - ((UINT_MOD : Nat) : Int)

/-- One concrete small vector (`$name<T>` from `def_small_vector!`):
fields `len`, `cap`, `ptr`, `data` as in the source; `inline_size` is the
`$size` constant baked into the variant. -/
structure SmallVec (α : Type) where
  len : Nat
  cap : Nat
  ptr : Option (List (Slot α))
  data : List (Slot α)
  inline_size : Nat
deriving DecidableEq, Repr

/-- The outcome of `pop`: either the fatal `fail!("overflow")` path, or a
normal return of `Option<T>` (here `Option (Slot α)`, the moved-out slot
contents) together with the container's state afterwards. -/
inductive PopResult (α : Type) where
  | overflowFail : PopResult α
  | result (val : Option (Slot α)) (after : SmallVec α) : PopResult α
deriving DecidableEq, Repr

/-- `intrinsics::set_memory(begin, 0, n)`: the first `n` slots of a buffer
become zeroed bytes, the rest are untouched. -/
def zeroFirst {α : Type} (n : Nat) (l : List (Slot α)) : List (Slot α) :=
  (l.take n).map (fun _ => Slot.zeroed) ++ l.drop n

namespace SmallVec

variable {α : Type}

/-- `$name::new()`: `len: 0, cap: $size, ptr: ptr::null(), data: mem::zeroed()`. -/
def new (size : Nat) : SmallVec α :=
  { len := 0
    cap := size
    ptr := none
    data := List.replicate size Slot.zeroed
    inline_size := size }

/-- `fn spilled(&self) -> bool { self.cap() > self.inline_size() }` -/
def spilled (v : SmallVec α) : Bool := decide (v.cap > v.inline_size)

/-- `fn begin(&self) -> *T`: the active storage — the heap buffer when
spilled, the inline array otherwise.  The model returns the slots of the
active storage (dereferencing a null/garbage pointer yields `[]`). -/
def begin (v : SmallVec α) : List (Slot α) :=
  if v.spilled then v.ptr.getD [] else v.data

/-- A write of slot contents `s` through `begin().offset(i)`: updates the
active storage in place. -/
def writeAt (v : SmallVec α) (i : Nat) (s : Slot α) : SmallVec α :=
  if v.spilled then { v with ptr := some ((v.ptr.getD []).set i s) }
  else { v with data := v.data.set i s }

/-- `fn grow(&mut self, new_cap: uint)`: allocate `new_cap` uninitialized
slots, `copy_nonoverlapping_memory` the first `len` slots of the active
storage into them, zero the first `len` inline slots if the old state was
inline (the old heap buffer is instead deallocated, which the model does
not track), then `set_ptr(new_alloc); set_cap(new_cap)`. -/
def grow (v : SmallVec α) (new_cap : Nat) : SmallVec α :=
  { v with
    data := if v.spilled then v.data else zeroFirst v.len v.data
    ptr := some ((v.begin).take v.len ++ List.replicate (new_cap - v.len) Slot.uninit)
    cap := new_cap }

/-- The body of `push` acting on raw slot contents: grow when full
(`grow(cmp::max(cap * 2, 1))`), write at `end()`, `set_len(len + 1)`.
`push` instantiates `s` with a live value; `clone` replays the slots the
source iterator yields through the same body. -/
def pushSlot (v : SmallVec α) (s : Slot α) : SmallVec α :=
  let w := if v.len = v.cap then v.grow (Nat.max (v.cap * 2) 1) else v
  { writeAt w w.len s with len := w.len + 1 }

/-- `fn push(&mut self, value: T)`. -/
def push (v : SmallVec α) (value : α) : SmallVec α :=
  pushSlot v (Slot.live value)

/-- A sequence of `push` calls, in order. -/
def pushAll (v : SmallVec α) (xs : List α) : SmallVec α :=
  xs.foldl push v

/-- A sequence of `pushSlot` calls, in order. -/
def pushAllSlots (v : SmallVec α) (ss : List (Slot α)) : SmallVec α :=
  ss.foldl pushSlot v

/-- `fn pop(&mut self) -> Option<T>`: `None` when `len == 0`; otherwise
`last_index = len - 1`, the fatal branch `if (last_index as int) < 0`,
then `swap` the slot at `begin().offset(last_index)` with uninitialized
bytes, `set_len(last_index)`, and return the moved-out contents. -/
def pop (v : SmallVec α) : PopResult α :=
  if v.len = 0 then .result none v
  else if asInt64 (v.len - 1) < 0 then .overflowFail
  else .result (some ((v.begin).getD (v.len - 1) Slot.uninit))
    { writeAt v (v.len - 1) Slot.uninit with len := v.len - 1 }

/-- Repeatedly `pop`, collecting the returned values; stops on `None`, on
the fatal branch, or when the fuel runs out. -/
def popAll : Nat → SmallVec α → List (Slot α)
  | 0, _ => []
  | fuel + 1, v =>
    match v.pop with
    | .overflowFail => []
    | .result none _ => []
    | .result (some s) w => s :: popAll fuel w

/-- `fn get(&self, index: uint) -> &T`: `fail_bounds_check` (fatal, `none`)
when `index >= len`, else the slot at `begin().offset(index)`. -/
def get (v : SmallVec α) (index : Nat) : Option (Slot α) :=
  if index ≥ v.len then none
  else some ((v.begin).getD index Slot.uninit)

/-- `fn get_mut(&mut self, index: uint) -> &mut T`: same checks and same
location as `get`. -/
def get_mut (v : SmallVec α) (index : Nat) : Option (Slot α) :=
  if index ≥ v.len then none
  else some ((v.begin).getD index Slot.uninit)

/-- `fn slice(&self, start, end) -> &[T]`: `assert!(start <= end)` and
`assert!(end <= len)` are fatal (`none`); otherwise the view
`[begin + start, begin + end)`. -/
def slice (v : SmallVec α) (start fin : Nat) : Option (List (Slot α)) :=
  if start ≤ fin ∧ fin ≤ v.len then
    some (((v.begin).drop start).take (fin - start))
  else none

/-- `fn as_slice(&self) -> &[T] { self.slice(0, self.len()) }` -/
def as_slice (v : SmallVec α) : Option (List (Slot α)) :=
  v.slice 0 v.len

/-- `fn mut_slice(&mut self, start, end) -> &mut [T]`: same asserts and
same view as `slice`. -/
def mut_slice (v : SmallVec α) (start fin : Nat) : Option (List (Slot α)) :=
  if start ≤ fin ∧ fin ≤ v.len then
    some (((v.begin).drop start).take (fin - start))
  else none

/-- `fn iter(&self) -> SmallVecIterator`: walks `[begin, end)` where
`end = begin + len`; the model is the list of slots the iterator will
yield references to, in order. -/
def iter (v : SmallVec α) : List (Slot α) :=
  (v.begin).take v.len

/-- `fn mut_iter(&mut self) -> SmallVecMutIterator`: same traversal as
`iter`, yielding mutable references. -/
def mut_iter (v : SmallVec α) : List (Slot α) :=
  (v.begin).take v.len

/-- The `Clone` impl from `def_small_vector_clone_impl!`: a new vector of
the same variant (`$name::new()`), then one push per slot the source's
`iter()` yields (`new_vector.push((*element).clone())`; duplicating a
model value is the identity, so the pushed slot is the yielded slot). -/
def clone (v : SmallVec α) : SmallVec α :=
  (v.iter).foldl pushSlot (new v.inline_size)

end SmallVec

/-- `SmallVecMoveIterator`: the captured heap allocation (if any), the
`cap` field the source stores (`inline_size`), and the captured inner
iterator, modelled as the list of slots it has yet to yield. -/
structure SmallVecMoveIterator (α : Type) where
  allocation : Option (List (Slot α))
  cap : Nat
  iter : List (Slot α)
deriving DecidableEq, Repr

/-- `fn move_iter(&mut self) -> SmallVecMoveIterator`: captures `iter()`
and (when spilled) the heap pointer, then `set_cap(inline_size)` and
`set_len(0)` on the source; returns the iterator and the source's state
after the reset. -/
def SmallVec.move_iter {α : Type} (v : SmallVec α) :
    SmallVecMoveIterator α × SmallVec α :=
  ({ allocation := if v.spilled then v.ptr else none
     cap := v.inline_size
     iter := v.iter },
   { v with cap := v.inline_size, len := 0 })

/-- `Iterator::next` for `SmallVecMoveIterator`: `None` when the inner
iterator is exhausted, otherwise `mem::replace(reference, mem::zeroed())`
— the yielded value is the slot's contents, moved out by value. -/
def SmallVecMoveIterator.next {α : Type} (it : SmallVecMoveIterator α) :
    Option (Slot α) × SmallVecMoveIterator α :=
  match it.iter with
  | [] => (none, it)
  | s :: rest => (some s, { it with iter := rest })

/-- Drive `next` until it yields `None` (or the fuel runs out), collecting
the yielded values in order. -/
def drainFuel {α : Type} : Nat → SmallVecMoveIterator α → List (Slot α)
  | 0, _ => []
  | fuel + 1, it =>
    match it.next with
    | (none, _) => []
    | (some s, it2) => s :: drainFuel fuel it2

/-- One public operation on a small vector, for stating properties of
operation sequences.  `move_iter` is deliberately absent: it is treated
separately because it resets the container.  `writeThroughRef i x` models
the caller writing `x` through the reference obtained from
`get_mut`/`mut_slice`/`mut_iter`. -/
inductive Op (α : Type) where
  | push (value : α) : Op α
  | pop : Op α
  | get (index : Nat) : Op α
  | get_mut (index : Nat) : Op α
  | writeThroughRef (index : Nat) (value : α) : Op α
  | slice (start fin : Nat) : Op α
  | mut_slice (start fin : Nat) : Op α
  | iter : Op α
  | mut_iter : Op α
  | clone : Op α

/-- The state of the container after one public operation.  Read-only
operations (and `clone`, which builds a fresh vector) leave it unchanged;
a fatal `pop` has no successor state, so the container's last state is
kept. -/
def applyOp {α : Type} (v : SmallVec α) : Op α → SmallVec α
  | .push x => v.push x
  | .pop =>
    match v.pop with
    | .overflowFail => v
    | .result _ w => w
  | .writeThroughRef i x => v.writeAt i (Slot.live x)
  | .get _ => v
  | .get_mut _ => v
  | .slice _ _ => v
  | .mut_slice _ _ => v
  | .iter => v
  | .mut_iter => v
  | .clone => v

/-- The capacity after `k` pushes starting from `new(N)`: the `push` body
grows to `cmp::max(cap * 2, 1)` exactly when `len == cap` before the push. -/
def capFor (N : Nat) : Nat → Nat
  | 0 => N
  | k + 1 =>
    if k = capFor N k then Nat.max (capFor N k * 2) 1 else capFor N k

/-- The state invariant that a sequence of `pushSlot` calls starting from
`new(N)` maintains, with `ss` the slots pushed so far in order. -/
structure Built (N : Nat) {α : Type} (ss : List (Slot α)) (v : SmallVec α) : Prop where
  hisz : v.inline_size = N
  hlen : v.len = ss.length
  hcap : v.cap = capFor N ss.length
  hdata : v.data.length = N
  hbegin : (v.begin).length = v.cap
  hcontent : (v.begin).take v.len = ss
  hptr : v.inline_size < v.cap → ∃ b, v.ptr = some b ∧ b.length = v.cap

/-- The part of `Built` that `pop` preserves: the active storage holds
`ss` in its first `len` slots. -/
structure Contains {α : Type} (ss : List (Slot α)) (v : SmallVec α) : Prop where
  hlen : v.len = ss.length
  hle : v.len ≤ (v.begin).length
  hcontent : (v.begin).take v.len = ss

/-! ### List helpers -/

theorem list_set_take {β : Type} (a : β) :
    ∀ (l : List β) (n : Nat), (l.set n a).take n = l.take n := by
  intro l
  induction l with
  | nil => intro n; simp
  | cons b t ih =>
    intro n
    cases n with
    | zero => simp
    | succ m => simp [ih m]

theorem list_set_take_succ {β : Type} (a : β) :
    ∀ (l : List β) (n : Nat), n < l.length →
      (l.set n a).take (n + 1) = l.take n ++ [a] := by
  intro l
  induction l with
  | nil => intro n h; simp at h
  | cons b t ih =>
    intro n h
    cases n with
    | zero => simp
    | succ m =>
      have hm : m < t.length := by simpa using h
      simp [ih m hm]

theorem list_take_append_self {β : Type} (m : List β) :
    ∀ (l : List β), (l ++ m).take l.length = l := by
  intro l
  induction l with
  | nil => simp
  | cons b t ih => simp [ih]

theorem list_take_succ_getD {β : Type} (d : β) :
    ∀ (l : List β) (n : Nat), (l.take (n + 1)).getD n d = l.getD n d := by
  intro l
  induction l with
  | nil => intro n; simp
  | cons b t ih =>
    intro n
    cases n with
    | zero => simp
    | succ m => simp [ih m]

theorem list_getD_append_last {β : Type} (a d : β) :
    ∀ (l : List β), (l ++ [a]).getD l.length d = a := by
  intro l
  induction l with
  | nil => simp
  | cons b t ih => simp [ih]

theorem list_take_take_succ {β : Type} :
    ∀ (l : List β) (n : Nat), (l.take (n + 1)).take n = l.take n := by
  intro l
  induction l with
  | nil => intro n; simp
  | cons b t ih =>
    intro n
    cases n with
    | zero => simp
    | succ m => simp [ih m]

theorem zeroFirst_length {α : Type} (n : Nat) (l : List (Slot α)) :
    (zeroFirst n l).length = l.length := by
  simp [zeroFirst]
  omega

/-! ### `capFor` facts -/

theorem capFor_succ_eq (N k : Nat) :
    capFor N (k + 1)
      = if k = capFor N k then Nat.max (capFor N k * 2) 1 else capFor N k := rfl

theorem capFor_ge_N (N : Nat) : ∀ k, N ≤ capFor N k
  | 0 => Nat.le_refl N
  | k + 1 => by
    have ih := capFor_ge_N N k
    rw [capFor_succ_eq]
    by_cases h : k = capFor N k
    · rw [if_pos h]
      have h2 : capFor N k ≤ capFor N k * 2 := by omega
      exact le_trans (le_trans ih h2) (Nat.le_max_left (capFor N k * 2) 1)
    · rw [if_neg h]
      exact ih

theorem capFor_ge_k (N : Nat) : ∀ k, k ≤ capFor N k
  | 0 => Nat.zero_le N
  | k + 1 => by
    have ih := capFor_ge_k N k
    rw [capFor_succ_eq]
    by_cases h : k = capFor N k
    · rw [if_pos h]
      have h1 : capFor N k * 2 ≤ Nat.max (capFor N k * 2) 1 := Nat.le_max_left _ _
      have h2 : 1 ≤ Nat.max (capFor N k * 2) 1 := Nat.le_max_right _ _
      omega
    · rw [if_neg h]
      omega

theorem capFor_of_le (N : Nat) : ∀ k, k ≤ N → capFor N k = N
  | 0, _ => rfl
  | k + 1, h => by
    have ih := capFor_of_le N k (Nat.le_of_succ_le h)
    rw [capFor_succ_eq, ih]
    have hk : ¬ (k = N) := by omega
    rw [if_neg hk]

theorem capFor_succ_N (N : Nat) : capFor N (N + 1) = Nat.max (N * 2) 1 := by
  rw [capFor_succ_eq, capFor_of_le N N (Nat.le_refl N)]
  rw [if_pos rfl]

/-! ### `asInt64` -/

theorem asInt64_of_small {n : Nat} (h : n < 2 ^ 63) : asInt64 n = (n : Int) := by
  have h64 : n < UINT_MOD := by
    unfold UINT_MOD
    calc n < 2 ^ 63 := h
    _ < 2 ^ 64 := by norm_num
  have hmod : n % UINT_MOD = n := Nat.mod_eq_of_lt h64
  unfold asInt64
  rw [hmod, if_pos h]

/-! ### Field lemmas for `writeAt`, `grow`, `pushSlot` -/

theorem spilled_iff {α : Type} (v : SmallVec α) :
    v.spilled = true ↔ v.inline_size < v.cap := by
  simp [SmallVec.spilled]

theorem writeAt_len {α : Type} (v : SmallVec α) (i : Nat) (s : Slot α) :
    (v.writeAt i s).len = v.len := by
  unfold SmallVec.writeAt
  split <;> rfl

theorem writeAt_cap {α : Type} (v : SmallVec α) (i : Nat) (s : Slot α) :
    (v.writeAt i s).cap = v.cap := by
  unfold SmallVec.writeAt
  split <;> rfl

theorem writeAt_isz {α : Type} (v : SmallVec α) (i : Nat) (s : Slot α) :
    (v.writeAt i s).inline_size = v.inline_size := by
  unfold SmallVec.writeAt
  split <;> rfl

theorem writeAt_spilled {α : Type} (v : SmallVec α) (i : Nat) (s : Slot α) :
    (v.writeAt i s).spilled = v.spilled := by
  unfold SmallVec.writeAt SmallVec.spilled
  split <;> rfl

theorem writeAt_data_length {α : Type} (v : SmallVec α) (i : Nat) (s : Slot α) :
    (v.writeAt i s).data.length = v.data.length := by
  unfold SmallVec.writeAt
  split
  · rfl
  · simp

theorem writeAt_begin {α : Type} (v : SmallVec α) (i : Nat) (s : Slot α) :
    (v.writeAt i s).begin = (v.begin).set i s := by
  unfold SmallVec.writeAt SmallVec.begin SmallVec.spilled
  by_cases h : v.inline_size < v.cap
  · simp [h]
  · simp [h]

theorem writeAt_ptr_of_spilled {α : Type} (v : SmallVec α) (i : Nat) (s : Slot α)
    (h : v.spilled = true) :
    (v.writeAt i s).ptr = some ((v.ptr.getD []).set i s) := by
  unfold SmallVec.writeAt
  rw [if_pos h]

theorem grow_len {α : Type} (v : SmallVec α) (nc : Nat) : (v.grow nc).len = v.len := rfl

theorem grow_cap {α : Type} (v : SmallVec α) (nc : Nat) : (v.grow nc).cap = nc := rfl

theorem grow_isz {α : Type} (v : SmallVec α) (nc : Nat) :
    (v.grow nc).inline_size = v.inline_size := rfl

theorem grow_ptr {α : Type} (v : SmallVec α) (nc : Nat) :
    (v.grow nc).ptr
      = some ((v.begin).take v.len ++ List.replicate (nc - v.len) Slot.uninit) := rfl

theorem grow_data_length {α : Type} (v : SmallVec α) (nc : Nat) :
    (v.grow nc).data.length = v.data.length := by
  show (if v.spilled then v.data else zeroFirst v.len v.data).length = v.data.length
  split
  · rfl
  · exact zeroFirst_length v.len v.data

theorem grow_begin {α : Type} (v : SmallVec α) (nc : Nat) (h : v.inline_size < nc) :
    (v.grow nc).begin
      = (v.begin).take v.len ++ List.replicate (nc - v.len) Slot.uninit := by
  have hs : (v.grow nc).spilled = true := by
    rw [spilled_iff, grow_cap, grow_isz]
    exact h
  unfold SmallVec.begin
  rw [if_pos hs, grow_ptr]
  rfl

theorem with_len_begin {α : Type} (v : SmallVec α) (n : Nat) :
    ({ v with len := n } : SmallVec α).begin = v.begin := rfl

theorem with_len_spilled {α : Type} (v : SmallVec α) (n : Nat) :
    ({ v with len := n } : SmallVec α).spilled = v.spilled := rfl

theorem pushSlot_of_full {α : Type} (v : SmallVec α) (s : Slot α) (h : v.len = v.cap) :
    v.pushSlot s
      = { (v.grow (Nat.max (v.cap * 2) 1)).writeAt v.len s with len := v.len + 1 } := by
  simp only [SmallVec.pushSlot, if_pos h, grow_len]

theorem pushSlot_of_not_full {α : Type} (v : SmallVec α) (s : Slot α) (h : ¬ (v.len = v.cap)) :
    v.pushSlot s = { v.writeAt v.len s with len := v.len + 1 } := by
  simp only [SmallVec.pushSlot, if_neg h]

/-! ### The push invariant -/

theorem built_new {α : Type} (N : Nat) : Built N ([] : List (Slot α)) (SmallVec.new N) :=
  { hisz := rfl
    hlen := rfl
    hcap := rfl
    hdata := by simp [SmallVec.new]
    hbegin := by simp [SmallVec.begin, SmallVec.spilled, SmallVec.new]
    hcontent := rfl
    hptr := by intro hlt; exact absurd hlt (Nat.lt_irrefl _) }

theorem built_pushSlot {α : Type} {N : Nat} {ss : List (Slot α)} {v : SmallVec α}
    (h : Built N ss v) (s : Slot α) : Built N (ss ++ [s]) (v.pushSlot s) := by
  have hlecap : v.len ≤ v.cap := by
    rw [h.hlen, h.hcap]
    exact capFor_ge_k N ss.length
  by_cases hfull : v.len = v.cap
  · rw [pushSlot_of_full v s hfull]
    have hcapN : N ≤ v.cap := by rw [h.hcap]; exact capFor_ge_N N ss.length
    have hClt : v.cap < Nat.max (v.cap * 2) 1 := by
      have h1 : v.cap * 2 ≤ Nat.max (v.cap * 2) 1 := Nat.le_max_left _ _
      have h2 : 1 ≤ Nat.max (v.cap * 2) 1 := Nat.le_max_right _ _
      omega
    have hspillC : v.inline_size < Nat.max (v.cap * 2) 1 := by
      rw [h.hisz]; omega
    have hgb : (v.grow (Nat.max (v.cap * 2) 1)).begin
        = (v.begin).take v.len
            ++ List.replicate (Nat.max (v.cap * 2) 1 - v.len) Slot.uninit :=
      grow_begin v _ hspillC
    have htakelen : ((v.begin).take v.len).length = v.len := by
      rw [List.length_take, h.hbegin]
      omega
    have hgblen : ((v.grow (Nat.max (v.cap * 2) 1)).begin).length
        = Nat.max (v.cap * 2) 1 := by
      rw [hgb, List.length_append, htakelen, List.length_replicate]
      omega
    have hgs : (v.grow (Nat.max (v.cap * 2) 1)).spilled = true := by
      rw [spilled_iff, grow_cap, grow_isz]
      exact hspillC
    have hcond : ss.length = capFor N ss.length := by
      rw [← h.hcap, ← h.hlen]
      exact hfull
    refine { hisz := ?_, hlen := ?_, hcap := ?_, hdata := ?_,
             hbegin := ?_, hcontent := ?_, hptr := ?_ }
    · show ((v.grow (Nat.max (v.cap * 2) 1)).writeAt v.len s).inline_size = N
      rw [writeAt_isz, grow_isz]
      exact h.hisz
    · show v.len + 1 = (ss ++ [s]).length
      simp [h.hlen]
    · show ((v.grow (Nat.max (v.cap * 2) 1)).writeAt v.len s).cap
        = capFor N (ss ++ [s]).length
      rw [writeAt_cap, grow_cap]
      simp only [List.length_append, List.length_cons, List.length_nil]
      rw [capFor_succ_eq, if_pos hcond, ← h.hcap]
    · show ((v.grow (Nat.max (v.cap * 2) 1)).writeAt v.len s).data.length = N
      rw [writeAt_data_length, grow_data_length]
      exact h.hdata
    · show (((v.grow (Nat.max (v.cap * 2) 1)).writeAt v.len s).begin).length
        = ((v.grow (Nat.max (v.cap * 2) 1)).writeAt v.len s).cap
      rw [writeAt_begin, writeAt_cap, grow_cap, List.length_set, hgblen]
    · show (((v.grow (Nat.max (v.cap * 2) 1)).writeAt v.len s).begin).take (v.len + 1)
        = ss ++ [s]
      rw [writeAt_begin]
      have hlt : v.len < ((v.grow (Nat.max (v.cap * 2) 1)).begin).length := by
        rw [hgblen]
        omega
      rw [list_set_take_succ s _ v.len hlt]
      have h5 : ((v.begin).take v.len
            ++ List.replicate (Nat.max (v.cap * 2) 1 - v.len) Slot.uninit).take v.len
          = (v.begin).take v.len := by
        have h6 := list_take_append_self
          (List.replicate (Nat.max (v.cap * 2) 1 - v.len) Slot.uninit)
          ((v.begin).take v.len)
        rw [htakelen] at h6
        exact h6
      rw [hgb, h5, h.hcontent]
    · intro hlt
      have hp := writeAt_ptr_of_spilled (v.grow (Nat.max (v.cap * 2) 1)) v.len s hgs
      refine ⟨((v.grow (Nat.max (v.cap * 2) 1)).ptr.getD []).set v.len s, hp, ?_⟩
      have hgd : (v.grow (Nat.max (v.cap * 2) 1)).ptr.getD []
          = (v.begin).take v.len
              ++ List.replicate (Nat.max (v.cap * 2) 1 - v.len) Slot.uninit := by
        rw [grow_ptr]
        rfl
      show (((v.grow (Nat.max (v.cap * 2) 1)).ptr.getD []).set v.len s).length
        = ((v.grow (Nat.max (v.cap * 2) 1)).writeAt v.len s).cap
      rw [List.length_set, hgd, List.length_append, htakelen, List.length_replicate,
          writeAt_cap, grow_cap]
      omega
  · rw [pushSlot_of_not_full v s hfull]
    have hlt : v.len < v.cap := Nat.lt_of_le_of_ne hlecap hfull
    have hcond : ¬ (ss.length = capFor N ss.length) := by
      rw [← h.hcap, ← h.hlen]
      exact hfull
    refine { hisz := ?_, hlen := ?_, hcap := ?_, hdata := ?_,
             hbegin := ?_, hcontent := ?_, hptr := ?_ }
    · show (v.writeAt v.len s).inline_size = N
      rw [writeAt_isz]
      exact h.hisz
    · show v.len + 1 = (ss ++ [s]).length
      simp [h.hlen]
    · show (v.writeAt v.len s).cap = capFor N (ss ++ [s]).length
      rw [writeAt_cap]
      simp only [List.length_append, List.length_cons, List.length_nil]
      rw [capFor_succ_eq, if_neg hcond]
      exact h.hcap
    · show (v.writeAt v.len s).data.length = N
      rw [writeAt_data_length]
      exact h.hdata
    · show ((v.writeAt v.len s).begin).length = (v.writeAt v.len s).cap
      rw [writeAt_begin, writeAt_cap, List.length_set]
      exact h.hbegin
    · show ((v.writeAt v.len s).begin).take (v.len + 1) = ss ++ [s]
      rw [writeAt_begin]
      have hlt2 : v.len < (v.begin).length := by
        rw [h.hbegin]
        exact hlt
      rw [list_set_take_succ s _ v.len hlt2, h.hcontent]
    · intro hsp
      have hsp2 : v.inline_size < v.cap := by
        have e1 : (v.writeAt v.len s).inline_size = v.inline_size := writeAt_isz v _ s
        have e2 : (v.writeAt v.len s).cap = v.cap := writeAt_cap v _ s
        rw [e1, e2] at hsp
        exact hsp
      obtain ⟨b, hb, hblen⟩ := h.hptr hsp2
      have hvs : v.spilled = true := (spilled_iff v).mpr hsp2
      have hp := writeAt_ptr_of_spilled v v.len s hvs
      refine ⟨(v.ptr.getD []).set v.len s, hp, ?_⟩
      show ((v.ptr.getD []).set v.len s).length = (v.writeAt v.len s).cap
      rw [List.length_set, hb, writeAt_cap]
      show b.length = v.cap
      exact hblen

theorem built_pushAllSlots {α : Type} {N : Nat} :
    ∀ (ts ss : List (Slot α)) (v : SmallVec α), Built N ss v →
      Built N (ss ++ ts) (v.pushAllSlots ts) := by
  intro ts
  induction ts with
  | nil =>
    intro ss v h
    simpa using h
  | cons t rest ih =>
    intro ss v h
    have h3 := ih (ss ++ [t]) (v.pushSlot t) (built_pushSlot h t)
    rw [List.append_assoc, List.singleton_append] at h3
    exact h3

theorem pushAll_eq_slots {α : Type} :
    ∀ (xs : List α) (v : SmallVec α), v.pushAll xs = v.pushAllSlots (xs.map Slot.live) := by
  intro xs
  induction xs with
  | nil => intro v; rfl
  | cons x rest ih =>
    intro v
    show (v.push x).pushAll rest = (v.push x).pushAllSlots (rest.map Slot.live)
    exact ih (v.push x)

theorem built_pushAll {α : Type} (N : Nat) (xs : List α) :
    Built N (xs.map Slot.live) ((SmallVec.new N).pushAll xs) := by
  rw [pushAll_eq_slots]
  have h := built_pushAllSlots (xs.map Slot.live) [] (SmallVec.new N) (built_new N)
  rw [List.nil_append] at h
  exact h

theorem contains_of_built {α : Type} {N : Nat} {ss : List (Slot α)} {v : SmallVec α}
    (h : Built N ss v) : Contains ss v :=
  { hlen := h.hlen
    hle := by
      rw [h.hbegin, h.hlen, h.hcap]
      exact capFor_ge_k N ss.length
    hcontent := h.hcontent }

/-! ### `pop` under the containment invariant -/

theorem pop_of_empty {α : Type} (v : SmallVec α) (h : v.len = 0) :
    v.pop = PopResult.result none v := by
  unfold SmallVec.pop
  rw [if_pos h]

theorem pop_contains {α : Type} {ss : List (Slot α)} {s : Slot α} {v : SmallVec α}
    (h : Contains (ss ++ [s]) v) (hsmall : ss.length < 2 ^ 63) :
    v.pop = PopResult.result (some s)
        { v.writeAt (v.len - 1) Slot.uninit with len := v.len - 1 }
      ∧ Contains ss { v.writeAt (v.len - 1) Slot.uninit with len := v.len - 1 } := by
  have hlen : v.len = ss.length + 1 := by
    rw [h.hlen]
    simp
  have hne : ¬ (v.len = 0) := by omega
  have hcast : ¬ (asInt64 (v.len - 1) < 0) := by
    rw [asInt64_of_small (by omega : v.len - 1 < 2 ^ 63)]
    omega
  have hc : (v.begin).take (ss.length + 1) = ss ++ [s] := by
    rw [← hlen]
    exact h.hcontent
  have hval : (v.begin).getD (v.len - 1) Slot.uninit = s := by
    have e1 : v.len - 1 = ss.length := by omega
    rw [e1, ← list_take_succ_getD Slot.uninit (v.begin) ss.length, hc,
        list_getD_append_last]
  constructor
  · unfold SmallVec.pop
    rw [if_neg hne, if_neg hcast, hval]
  · refine { hlen := ?_, hle := ?_, hcontent := ?_ }
    · show v.len - 1 = ss.length
      omega
    · show v.len - 1 ≤ ((v.writeAt (v.len - 1) Slot.uninit).begin).length
      rw [writeAt_begin, List.length_set]
      have := h.hle
      omega
    · show ((v.writeAt (v.len - 1) Slot.uninit).begin).take (v.len - 1) = ss
      rw [writeAt_begin]
      have e1 : v.len - 1 = ss.length := by omega
      rw [e1, list_set_take Slot.uninit (v.begin) ss.length,
          ← list_take_take_succ (v.begin) ss.length, hc,
          list_take_append_self]

theorem popAll_contains {α : Type} :
    ∀ (ss : List (Slot α)) (v : SmallVec α), Contains ss v → ss.length ≤ 2 ^ 63 →
      SmallVec.popAll ss.length v = ss.reverse := by
  intro ss
  induction ss using List.reverseRecOn with
  | nil => intro v h hb; rfl
  | append_singleton ts t ih =>
    intro v h hb
    have hlt : ts.length < 2 ^ 63 := by
      have e : (ts ++ [t]).length = ts.length + 1 := by simp
      omega
    obtain ⟨hpop, hcont⟩ := pop_contains h hlt
    have e : (ts ++ [t]).length = ts.length + 1 := by simp
    rw [e]
    show SmallVec.popAll (ts.length + 1) v = (ts ++ [t]).reverse
    rw [SmallVec.popAll, hpop]
    show t :: SmallVec.popAll ts.length
        { v.writeAt (v.len - 1) Slot.uninit with len := v.len - 1 }
      = (ts ++ [t]).reverse
    rw [ih _ hcont (by omega)]
    simp

/-! ### `move_iter` drain -/

theorem drainFuel_iter {α : Type} :
    ∀ (l : List (Slot α)) (it : SmallVecMoveIterator α), it.iter = l →
      drainFuel l.length it = l := by
  intro l
  induction l with
  | nil => intro it h; rfl
  | cons s rest ih =>
    intro it h
    show drainFuel (rest.length + 1) it = s :: rest
    rw [drainFuel]
    have hn : it.next = (some s, { it with iter := rest }) := by
      unfold SmallVecMoveIterator.next
      rw [h]
    rw [hn]
    show s :: drainFuel rest.length { it with iter := rest } = s :: rest
    rw [ih { it with iter := rest } rfl]

/-! ### Spilledness is preserved by the non-resetting operations -/

theorem pushSlot_isz {α : Type} (v : SmallVec α) (s : Slot α) :
    (v.pushSlot s).inline_size = v.inline_size := by
  by_cases h : v.len = v.cap
  · rw [pushSlot_of_full v s h]
    show ((v.grow (Nat.max (v.cap * 2) 1)).writeAt v.len s).inline_size = v.inline_size
    rw [writeAt_isz, grow_isz]
  · rw [pushSlot_of_not_full v s h]
    show (v.writeAt v.len s).inline_size = v.inline_size
    rw [writeAt_isz]

theorem pushSlot_cap_ge {α : Type} (v : SmallVec α) (s : Slot α) :
    v.cap ≤ (v.pushSlot s).cap := by
  by_cases h : v.len = v.cap
  · rw [pushSlot_of_full v s h]
    show v.cap ≤ ((v.grow (Nat.max (v.cap * 2) 1)).writeAt v.len s).cap
    rw [writeAt_cap, grow_cap]
    have h1 : v.cap * 2 ≤ Nat.max (v.cap * 2) 1 := Nat.le_max_left _ _
    omega
  · rw [pushSlot_of_not_full v s h]
    show v.cap ≤ (v.writeAt v.len s).cap
    rw [writeAt_cap]

theorem applyOp_pop_spilled {α : Type} (v : SmallVec α) (h : v.spilled = true) :
    (applyOp v Op.pop).spilled = true := by
  show (match v.pop with
        | .overflowFail => v
        | .result _ w => w).spilled = true
  unfold SmallVec.pop
  by_cases h0 : v.len = 0
  · rw [if_pos h0]
    exact h
  · rw [if_neg h0]
    by_cases hc : asInt64 (v.len - 1) < 0
    · rw [if_pos hc]
      exact h
    · rw [if_neg hc]
      show ({ v.writeAt (v.len - 1) Slot.uninit with len := v.len - 1 }
          : SmallVec α).spilled = true
      rw [with_len_spilled, writeAt_spilled]
      exact h

theorem spilled_mono_applyOp {α : Type} (v : SmallVec α) (op : Op α)
    (h : v.spilled = true) : (applyOp v op).spilled = true := by
  cases op with
  | push x =>
    show (v.pushSlot (Slot.live x)).spilled = true
    rw [spilled_iff] at h ⊢
    rw [pushSlot_isz]
    have := pushSlot_cap_ge v (Slot.live x)
    omega
  | pop => exact applyOp_pop_spilled v h
  | writeThroughRef i x =>
    show (v.writeAt i (Slot.live x)).spilled = true
    rw [writeAt_spilled]
    exact h
  | get i => exact h
  | get_mut i => exact h
  | slice s e => exact h
  | mut_slice s e => exact h
  | iter => exact h
  | mut_iter => exact h
  | clone => exact h

theorem spilled_mono_ops {α : Type} :
    ∀ (ops : List (Op α)) (v : SmallVec α), v.spilled = true →
      (ops.foldl applyOp v).spilled = true := by
  intro ops
  induction ops with
  | nil => intro v h; exact h
  | cons op rest ih =>
    intro v h
    exact ih (applyOp v op) (spilled_mono_applyOp v op h)

/-! ### `clone` and `as_slice` helpers -/

theorem built_clone {α : Type} (v : SmallVec α) :
    Built v.inline_size (v.iter) (v.clone) := by
  have h := built_pushAllSlots (v.iter) [] (SmallVec.new v.inline_size)
    (built_new v.inline_size)
  rw [List.nil_append] at h
  exact h

theorem as_slice_eq_iter {α : Type} (v : SmallVec α) :
    v.as_slice = some (v.iter) := by
  unfold SmallVec.as_slice SmallVec.slice SmallVec.iter
  rw [if_pos ⟨Nat.zero_le v.len, Nat.le_refl v.len⟩]
  simp

/-! ### The claims -/

/-- Claim C1: for every sequence of pushes onto a container created by
`new()` (any sequence short enough to exist on a 64-bit target), `pop`
returns the pushed values in strict reverse order of insertion, and `pop`
on a container with `length == 0` returns nothing and leaves the
container unchanged. -/
theorem c1_pop_lifo {α : Type} (N : Nat) (xs : List α) (hxs : xs.length ≤ 2 ^ 63)
    (w : SmallVec α) (hw : w.len = 0) :
    SmallVec.popAll xs.length ((SmallVec.new N).pushAll xs)
        = (xs.reverse).map Slot.live
      ∧ w.pop = PopResult.result none w := by
  constructor
  · have hc := contains_of_built (built_pushAll N xs)
    have hlen : (xs.map Slot.live).length = xs.length := by simp
    have h := popAll_contains (xs.map Slot.live) _ hc (by rw [hlen]; exact hxs)
    rw [hlen] at h
    rw [h]
    simp
  · exact pop_of_empty w hw

theorem c1_pop_lifo_witness :
    ([10, 20, 30] : List Nat).length ≤ 2 ^ 63
      ∧ (SmallVec.new 2 : SmallVec Nat).len = 0
      ∧ (SmallVec.popAll ([10, 20, 30] : List Nat).length
            ((SmallVec.new 2).pushAll [10, 20, 30])
          = (([10, 20, 30] : List Nat).reverse).map Slot.live
        ∧ (SmallVec.new 2 : SmallVec Nat).pop
            = PopResult.result none (SmallVec.new 2)) :=
  ⟨by decide, rfl,
   c1_pop_lifo 2 [10, 20, 30] (by decide) (SmallVec.new 2) rfl⟩

theorem spill_boundary_general {α : Type} (N : Nat) (hN : 1 ≤ N) (xs : List α)
    (hxs : xs.length = N) (x : α) :
    ((SmallVec.new N).pushAll xs).spilled = false
      ∧ ((SmallVec.new N).pushAll xs).cap = N
      ∧ (((SmallVec.new N).pushAll xs).push x).spilled = true
      ∧ (((SmallVec.new N).pushAll xs).push x).cap = 2 * N := by
  have hb := built_pushAll N xs
  have hlenm : (xs.map Slot.live).length = N := by simp [hxs]
  have hcap1 : ((SmallVec.new N).pushAll xs).cap = N := by
    rw [hb.hcap, hlenm, capFor_of_le N N (Nat.le_refl N)]
  have hpush : Built N ((xs.map Slot.live) ++ [Slot.live x])
      (((SmallVec.new N).pushAll xs).push x) := built_pushSlot hb (Slot.live x)
  have hlen2 : ((xs.map Slot.live) ++ [Slot.live x]).length = N + 1 := by
    simp [hxs]
  have hmx : Nat.max (N * 2) 1 = N * 2 := max_eq_left (by omega)
  have hcap2 : (((SmallVec.new N).pushAll xs).push x).cap = 2 * N := by
    rw [hpush.hcap, hlen2, capFor_succ_N]
    omega
  refine ⟨?_, hcap1, ?_, hcap2⟩
  · simp [SmallVec.spilled, hcap1, hb.hisz]
  · rw [spilled_iff, hpush.hisz, hcap2]
    omega

/-- Claim C2: for every concrete variant (inline sizes 1, 2, 4, 8, 16, 24,
32), pushing exactly `inline_size` elements onto a new container leaves
`spilled()` false with `capacity() == inline_size`; the next push makes
`spilled()` true with `capacity() > inline_size`, and because `push` grows
to `max(2 * capacity, 1)`, the capacity after that first spill is exactly
`2 * inline_size`. -/
theorem c2_spill_boundary {α : Type} (N : Nat)
    (hN : N ∈ ([1, 2, 4, 8, 16, 24, 32] : List Nat)) (xs : List α)
    (hxs : xs.length = N) (x : α) :
    ((SmallVec.new N).pushAll xs).spilled = false
      ∧ ((SmallVec.new N).pushAll xs).cap = N
      ∧ (((SmallVec.new N).pushAll xs).push x).spilled = true
      ∧ N < (((SmallVec.new N).pushAll xs).push x).cap
      ∧ (((SmallVec.new N).pushAll xs).push x).cap = 2 * N := by
  have hN1 : 1 ≤ N := by
    simp only [List.mem_cons, List.not_mem_nil, or_false] at hN
    omega
  obtain ⟨a, b, c, d⟩ := spill_boundary_general N hN1 xs hxs x
  exact ⟨a, b, c, by omega, d⟩

theorem c2_spill_boundary_witness :
    (2 ∈ ([1, 2, 4, 8, 16, 24, 32] : List Nat)) ∧ ([40, 41] : List Nat).length = 2
      ∧ (((SmallVec.new 2 : SmallVec Nat).pushAll [40, 41]).spilled = false
        ∧ ((SmallVec.new 2 : SmallVec Nat).pushAll [40, 41]).cap = 2
        ∧ (((SmallVec.new 2 : SmallVec Nat).pushAll [40, 41]).push 42).spilled = true
        ∧ 2 < (((SmallVec.new 2 : SmallVec Nat).pushAll [40, 41]).push 42).cap
        ∧ (((SmallVec.new 2 : SmallVec Nat).pushAll [40, 41]).push 42).cap = 2 * 2) :=
  ⟨by decide, rfl, c2_spill_boundary 2 (by decide) [40, 41] rfl 42⟩

/-- Claim C3: for every sequence of values pushed onto a new container,
however many growth/spill events occur on the way, `as_slice()` returns
exactly those values in insertion order. -/
theorem c3_as_slice_insertion_order {α : Type} (N : Nat) (xs : List α) :
    ((SmallVec.new N).pushAll xs).as_slice = some (xs.map Slot.live) := by
  have hb := built_pushAll N xs
  rw [as_slice_eq_iter]
  have h2 : ((SmallVec.new N).pushAll xs).iter = xs.map Slot.live := hb.hcontent
  rw [h2]

/-- Counterexample to claim C4 as stated: `move_iter` is in the claim's
list of operations, yet calling it on a spilled container makes
`spilled()` false again (the source resets `cap` to `inline_size`). -/
theorem c4_spill_one_directional_cex :
    ((SmallVec.new 2 : SmallVec Nat).pushAll [1, 2, 3]).spilled = true
      ∧ ((((SmallVec.new 2 : SmallVec Nat).pushAll [1, 2, 3]).move_iter).2).spilled
          = false := by
  decide

/-- Claim C4 as amended: spilling is one-directional under every public
operation except `move_iter` — for any sequence of `push`, `pop`, `get`,
`get_mut` (including writes through the returned reference), `slice`,
`mut_slice`, `iter`, `mut_iter` and `clone`, once `spilled()` is true it
stays true, even when elements are removed.  `move_iter` is the
exception: it resets the source to the empty inline state, making
`spilled()` false. -/
theorem c4_spill_one_directional_amended {α : Type} (v : SmallVec α)
    (ops : List (Op α)) (h : v.spilled = true) :
    (ops.foldl applyOp v).spilled = true :=
  spilled_mono_ops ops v h

theorem c4_spill_one_directional_amended_witness :
    ((SmallVec.new 2 : SmallVec Nat).pushAll [1, 2, 3]).spilled = true
      ∧ (([Op.pop, Op.pop, Op.pop, Op.push 9, Op.get 0, Op.clone]).foldl applyOp
          ((SmallVec.new 2 : SmallVec Nat).pushAll [1, 2, 3])).spilled = true :=
  ⟨by decide,
   c4_spill_one_directional_amended ((SmallVec.new 2 : SmallVec Nat).pushAll [1, 2, 3])
     [Op.pop, Op.pop, Op.pop, Op.push 9, Op.get 0, Op.clone] (by decide)⟩

/-- Claim C5: `move_iter()` resets the source to the empty inline state at
the moment of iterator creation — for every container the source has
`length 0` and `capacity == inline_size` immediately afterwards — and for
a container built by pushes the returned iterator yields exactly the
former elements, by value, in their original order (and the reset source
is not spilled). -/
theorem c5_move_iter_detach_then_yield {α : Type} (N : Nat) (xs : List α)
    (w : SmallVec α) :
    ((w.move_iter).2).len = 0
      ∧ ((w.move_iter).2).cap = w.inline_size
      ∧ drainFuel (((((SmallVec.new N).pushAll xs).move_iter).1).iter).length
          ((((SmallVec.new N).pushAll xs).move_iter).1)
        = xs.map Slot.live
      ∧ ((((SmallVec.new N).pushAll xs).move_iter).2).spilled = false := by
  refine ⟨rfl, rfl, ?_, ?_⟩
  · have hb := built_pushAll N xs
    have hiter : ((((SmallVec.new N).pushAll xs).move_iter).1).iter
        = xs.map Slot.live := hb.hcontent
    rw [hiter]
    exact drainFuel_iter (xs.map Slot.live) _ hiter
  · simp [SmallVec.move_iter, SmallVec.spilled]

/-- Claim C6: `get` and `get_mut` fail fatally (model: return `none`,
never a value) exactly when `index >= length`; when `index < length` they
return the element at that index of the active storage. -/
theorem c6_get_bounds {α : Type} (v : SmallVec α) (i : Nat) :
    (v.get i = none ↔ v.len ≤ i)
      ∧ (v.get_mut i = none ↔ v.len ≤ i)
      ∧ (i < v.len →
          v.get i = some ((v.begin).getD i Slot.uninit)
            ∧ v.get_mut i = some ((v.begin).getD i Slot.uninit)) := by
  unfold SmallVec.get SmallVec.get_mut
  by_cases h : i ≥ v.len
  · rw [if_pos h]
    exact ⟨⟨fun _ => h, fun _ => rfl⟩, ⟨fun _ => h, fun _ => rfl⟩,
           fun hi => absurd hi (by omega)⟩
  · rw [if_neg h]
    exact ⟨⟨fun hc => Option.noConfusion hc, fun hle => absurd hle h⟩,
           ⟨fun hc => Option.noConfusion hc, fun hle => absurd hle h⟩,
           fun _ => ⟨rfl, rfl⟩⟩

theorem c6_get_bounds_witness :
    ((SmallVec.new 2 : SmallVec Nat).pushAll [4, 5, 6]).get 5 = none
      ∧ ((SmallVec.new 2 : SmallVec Nat).pushAll [4, 5, 6]).get 1
          = some (((((SmallVec.new 2 : SmallVec Nat).pushAll [4, 5, 6])).begin).getD 1
              Slot.uninit) :=
  ⟨(c6_get_bounds ((SmallVec.new 2 : SmallVec Nat).pushAll [4, 5, 6]) 5).1.mpr
     (by decide),
   ((c6_get_bounds ((SmallVec.new 2 : SmallVec Nat).pushAll [4, 5, 6]) 1).2.2
     (by decide)).1⟩

/-- Claim C7: `clone()` returns a container of the same concrete variant
(same `inline_size`) whose element-by-element contents equal the
source's, in order.  The clone is built by pushing copies onto a fresh
`new()` container, so in this value-semantics model it shares no state
with the source and mutating it cannot change the source. -/
theorem c7_clone_deep_copy {α : Type} (v : SmallVec α) :
    (v.clone).as_slice = v.as_slice ∧ (v.clone).inline_size = v.inline_size := by
  have hb := built_clone v
  constructor
  · have h2 : (v.clone).iter = v.iter := hb.hcontent
    rw [as_slice_eq_iter, as_slice_eq_iter, h2]
  · exact hb.hisz

/-- Counterexample to claim C8 as stated: `new()` does not leave the
inline array as uninitialized memory — the source initializes it with
`mem::zeroed()`, i.e. it is zero-filled. -/
theorem c8_new_uninit_cex :
    (SmallVec.new 2 : SmallVec Nat).data = List.replicate 2 Slot.zeroed
      ∧ ¬ ((SmallVec.new 2 : SmallVec Nat).data = List.replicate 2 Slot.uninit) := by
  decide

/-- Claim C8 as amended: for every concrete variant, `new()` returns a
container with `length 0`, `capacity == inline_size`, a null spill
pointer, and an inline array that is zero-filled (`mem::zeroed()`), not
left as arbitrary uninitialized memory. -/
theorem c8_new_initial_state {α : Type} (N : Nat) :
    (SmallVec.new N : SmallVec α).len = 0
      ∧ (SmallVec.new N : SmallVec α).cap = N
      ∧ (SmallVec.new N : SmallVec α).ptr = none
      ∧ (SmallVec.new N : SmallVec α).data = List.replicate N Slot.zeroed :=
  ⟨rfl, rfl, rfl, rfl⟩

/-- Claim C9: the spilled state of a clone depends only on the source's
length: whenever the source's length is at most its `inline_size`, the
clone is non-spilled with `capacity == inline_size`, even when the source
itself is spilled, because `clone` replays pushes from the empty inline
state. -/
theorem c9_clone_of_short_source_is_inline {α : Type} (v : SmallVec α)
    (hle : v.len ≤ (v.begin).length) (hN : v.len ≤ v.inline_size) :
    (v.clone).cap = v.inline_size ∧ (v.clone).spilled = false := by
  have hb := built_clone v
  have hlen : (v.iter).length = v.len := by
    unfold SmallVec.iter
    rw [List.length_take]
    exact min_eq_left hle
  have hcap : (v.clone).cap = v.inline_size := by
    rw [hb.hcap, hlen, capFor_of_le _ _ hN]
  refine ⟨hcap, ?_⟩
  unfold SmallVec.spilled
  rw [hcap, hb.hisz]
  simp

theorem c9_clone_of_short_source_is_inline_witness :
    (([Op.pop, Op.pop].foldl applyOp
        ((SmallVec.new 2 : SmallVec Nat).pushAll [10, 20, 30])).spilled = true)
      ∧ (([Op.pop, Op.pop].foldl applyOp
          ((SmallVec.new 2 : SmallVec Nat).pushAll [10, 20, 30])).len
        ≤ ((([Op.pop, Op.pop].foldl applyOp
            ((SmallVec.new 2 : SmallVec Nat).pushAll [10, 20, 30])).begin)).length)
      ∧ (([Op.pop, Op.pop].foldl applyOp
          ((SmallVec.new 2 : SmallVec Nat).pushAll [10, 20, 30])).len
        ≤ ([Op.pop, Op.pop].foldl applyOp
            ((SmallVec.new 2 : SmallVec Nat).pushAll [10, 20, 30])).inline_size)
      ∧ ((([Op.pop, Op.pop].foldl applyOp
            ((SmallVec.new 2 : SmallVec Nat).pushAll [10, 20, 30])).clone).cap
          = ([Op.pop, Op.pop].foldl applyOp
              ((SmallVec.new 2 : SmallVec Nat).pushAll [10, 20, 30])).inline_size
        ∧ (([Op.pop, Op.pop].foldl applyOp
            ((SmallVec.new 2 : SmallVec Nat).pushAll [10, 20, 30])).clone).spilled
          = false) :=
  ⟨by decide, by decide, by decide,
   c9_clone_of_short_source_is_inline
     ([Op.pop, Op.pop].foldl applyOp
       ((SmallVec.new 2 : SmallVec Nat).pushAll [10, 20, 30]))
     (by decide) (by decide)⟩

/-- Claim C10: the overflow-failure branch in `pop` is unreachable on
reachable states: for every container with `1 <= length <= 2^63`, the
check that `length - 1` cast to a signed 64-bit integer is negative never
fires, so `pop` never aborts there and always returns a value. -/
theorem c10_pop_overflow_unreachable {α : Type} (v : SmallVec α)
    (h1 : 1 ≤ v.len) (h2 : v.len ≤ 2 ^ 63) :
    v.pop ≠ PopResult.overflowFail
      ∧ ∃ s w, v.pop = PopResult.result (some s) w := by
  have hne : ¬ (v.len = 0) := by omega
  have hcast : ¬ (asInt64 (v.len - 1) < 0) := by
    rw [asInt64_of_small (by omega : v.len - 1 < 2 ^ 63)]
    omega
  unfold SmallVec.pop
  rw [if_neg hne, if_neg hcast]
  exact ⟨fun hc => PopResult.noConfusion hc, _, _, rfl⟩

theorem c10_pop_overflow_unreachable_witness :
    1 ≤ ((SmallVec.new 1 : SmallVec Nat).pushAll [7]).len
      ∧ ((SmallVec.new 1 : SmallVec Nat).pushAll [7]).len ≤ 2 ^ 63
      ∧ (((SmallVec.new 1 : SmallVec Nat).pushAll [7]).pop ≠ PopResult.overflowFail
        ∧ ∃ s w, ((SmallVec.new 1 : SmallVec Nat).pushAll [7]).pop
            = PopResult.result (some s) w) :=
  ⟨by decide, by decide,
   c10_pop_overflow_unreachable ((SmallVec.new 1 : SmallVec Nat).pushAll [7])
     (by decide) (by decide)⟩
